import Mathlib

/-
Verification development for the `jag` bucket-replication auditor.

The Go sources are shallowly embedded: pure functions become Lean
functions, the mutable loop state of `buildModel` and the random walk of
`sampleRandomKey` become explicit state threading, Go slices become
lists, Go `int`/`int64` counters become `Nat`/`Int` (the counts involved
are non-negative and far from machine-word overflow), and operations
that can fail (JSON decoding, S3 listing, out-of-bounds slice writes,
which panic in Go) return `Option`/`Except`.

The float64 arithmetic of `probThatKeyAtDepth` is embedded over `Rat`;
the theorems below never depend on rounding, only on which branch the
function takes and on the operand values, so this is faithful for the
stated properties.  The pseudo-random generator `rand.Rand` is embedded
as an abstract stream of draws (`Rng`); all sampler theorems are proved
for every stream, hence for the real generator in particular.
-/

/-- Embedding of the `s3.Key` record in the fields the program reads:
`Key` (the path), `LastModified`, `ETag` and `Size`. -/
structure S3Key where
  key : String
  lastModified : String
  etag : String
  size : Int
deriving DecidableEq, Repr

/-- Embedding of one `s3.ListResp` as consumed by the program: the keys
directly under the listed prefix and the first-level common prefixes. -/
structure ListResp where
  contents : List S3Key
  commonPrefixes : List String
deriving DecidableEq, Repr

/-- Embedding of the `bucketModel` struct of `model.go` (the revision
without the bucket name): a dense per-depth key count and the total. -/
structure bucketModel where
  depths : List Nat
  keyCount : Nat
deriving DecidableEq, Repr

/-- Number of slash characters in a path, as computed by
`strings.Count(key, "/")` for the one-character separator. -/
def slashCount (s : String) : Nat :=
  s.data.count '/'

/-- State of the `buildModel` loop: the `depthMap`, the running `count`,
and the running `maxDepth`. -/
structure BuildState where
  depthMap : Nat → Nat
  count : Nat
  maxDepth : Nat

/-- Body of one iteration of the `buildModel` loop over a key that was
consumed: increment `depthMap[depth]` and `count`, update `maxDepth`. -/
def buildStep (st : BuildState) (k : S3Key) : BuildState :=
  let depth := slashCount k.key
  { depthMap := fun d => if d = depth then st.depthMap d + 1 else st.depthMap d
    count := st.count + 1
    maxDepth := max st.maxDepth depth }

/-- Embedding of the `for key := range keys` loop of `buildModel`: the
abort channel is modelled as the number of loop entries after which the
`select` sees the closed channel (`none` when it never fires); on abort
the loop breaks before counting the current key. -/
def buildLoop : List S3Key → Option Nat → BuildState → BuildState
  | [], _, st => st
  | _ :: _, some 0, st => st
  | k :: rest, some (n + 1), st => buildLoop rest (some n) (buildStep st k)
  | k :: rest, none, st => buildLoop rest none (buildStep st k)

/-- Embedding of `buildModel` (`model.go`): consume the stream (up to
cancellation), then materialize `depths` as the dense slice
`make([]int, maxDepth+1)` filled from `depthMap`. -/
def buildModel (keys : List S3Key) (abortAfter : Option Nat) : bucketModel :=
  let st := buildLoop keys abortAfter ⟨fun _ => 0, 0, 0⟩
  { depths := (List.range (st.maxDepth + 1)).map st.depthMap
    keyCount := st.count }

/-- Embedding of one `depthLevel` record of the serialized model
document. -/
structure depthLevel where
  level : Nat
  count : Nat
deriving DecidableEq, Repr

/-- Embedding of the serialized model document: the ordered `depths`
record list and `key_count`. -/
structure ModelDoc where
  depths : List depthLevel
  keyCount : Nat
deriving DecidableEq, Repr

/-- Embedding of `bucketModel.MarshalJSON`: one `{level, count}` record
per slice position, in slice order, plus the total. -/
def marshalModel (b : bucketModel) : ModelDoc :=
  { depths := b.depths.enum.map fun ic => ⟨ic.1, ic.2⟩
    keyCount := b.keyCount }

/-- Embedding of the Go indexed write `b.depths[depthL.Level] = depthL.Count`
inside `UnmarshalJSON`: in Go an out-of-range index panics, modelled as
`none`. -/
def setLevel (arr : List Nat) (i : Nat) (c : Nat) : Option (List Nat) :=
  if i < arr.length then some (arr.set i c) else none

/-- Embedding of the record loop of `UnmarshalJSON` over the allocated
slice. -/
def applyLevels (recs : List depthLevel) (arr : List Nat) : Option (List Nat) :=
  match recs with
  | [] => some arr
  | r :: rest => match setLevel arr r.level r.count with
    | none => none
    | some arr2 => applyLevels rest arr2

/-- Embedding of `bucketModel.UnmarshalJSON` applied to an already
decoded document: allocate `make([]int, len(d.Depth))`, write each
record at its level (a Go panic on an out-of-range level is `none`),
and take `key_count` over. -/
def unmarshalModel (d : ModelDoc) : Option bucketModel :=
  match applyLevels d.depths (List.replicate d.depths.length 0) with
  | none => none
  | some arr => some { depths := arr, keyCount := d.keyCount }

/-- Embedding of `verifier.probThatKeyAtDepth` over `Rat`: out-of-model
depths give probability zero, otherwise `depths[depth] / keyCount`.
In Go the division is on float64 (0/0 gives NaN); the theorems about
this function only use the branch condition and the operand values. -/
def probThatKeyAtDepth (m : bucketModel) (depth : Nat) : Rat :=
  if depth ≥ m.depths.length then 0
  else (m.depths.getD depth 0 : Rat) / (m.keyCount : Rat)

example : buildModel [⟨"a", "", "", 0⟩, ⟨"b/c", "", "", 0⟩, ⟨"b/d/e", "", "", 0⟩] none
    = { depths := [1, 1, 1], keyCount := 3 } := by decide
example : unmarshalModel (marshalModel { depths := [1, 1, 1], keyCount := 3 })
    = some { depths := [1, 1, 1], keyCount := 3 } := by decide
example : unmarshalModel { depths := [⟨1, 5⟩], keyCount := 5 } = none := by decide

/-- Keys actually consumed by the `buildModel` loop: all of them when the
abort channel never fires, the first `n` when it fires at loop entry
`n`. -/
def consumedKeys (keys : List S3Key) : Option Nat → List S3Key
  | none => keys
  | some n => keys.take n

lemma buildLoop_eq_foldl (keys : List S3Key) (ab : Option Nat) (st : BuildState) :
    buildLoop keys ab st = (consumedKeys keys ab).foldl buildStep st := by
  induction keys generalizing ab st with
  | nil => cases ab <;> simp [buildLoop, consumedKeys]
  | cons k rest ih =>
    cases ab with
    | none => simpa [buildLoop, consumedKeys] using ih none (buildStep st k)
    | some n =>
      cases n with
      | zero => simp [buildLoop, consumedKeys]
      | succ m => simpa [buildLoop, consumedKeys] using ih (some m) (buildStep st k)

lemma buildFold_count (l : List S3Key) (st : BuildState) :
    (l.foldl buildStep st).count = st.count + l.length := by
  induction l generalizing st with
  | nil => simp
  | cons k rest ih =>
    simp only [List.foldl_cons, ih, buildStep, List.length_cons]
    omega

lemma buildFold_depthMap (l : List S3Key) (st : BuildState) (d : Nat) :
    (l.foldl buildStep st).depthMap d
      = st.depthMap d + l.countP (fun k => slashCount k.key == d) := by
  induction l generalizing st with
  | nil => simp
  | cons k rest ih =>
    simp only [List.foldl_cons, ih, buildStep, List.countP_cons]
    by_cases h : slashCount k.key = d
    · simp [h]; omega
    · have h2 : ¬(d = slashCount k.key) := fun he => h he.symm
      simp [h, h2]

lemma buildFold_maxDepth_le (l : List S3Key) (st : BuildState) :
    st.maxDepth ≤ (l.foldl buildStep st).maxDepth := by
  induction l generalizing st with
  | nil => simp
  | cons k rest ih =>
    simp only [List.foldl_cons]
    exact le_trans (le_max_left _ _) (ih (buildStep st k))

lemma buildFold_maxDepth_mem (l : List S3Key) (st : BuildState) (k : S3Key) (hk : k ∈ l) :
    slashCount k.key ≤ (l.foldl buildStep st).maxDepth := by
  induction l generalizing st with
  | nil => cases hk
  | cons a rest ih =>
    rcases List.mem_cons.mp hk with h | h
    · subst h
      simp only [List.foldl_cons]
      exact le_trans (le_max_right st.maxDepth _) (buildFold_maxDepth_le rest (buildStep st k))
    · simpa using ih (buildStep st a) h

lemma sum_map_add {α : Type} (l : List α) (f g : α → Nat) :
    (l.map fun a => f a + g a).sum = (l.map f).sum + (l.map g).sum := by
  induction l with
  | nil => simp
  | cons a rest ih => simp [ih]; omega

lemma sum_range_indicator_zero (x n : Nat) (h : n ≤ x) :
    ((List.range n).map fun d => if x = d then 1 else 0).sum = 0 := by
  induction n with
  | zero => simp
  | succ m ih =>
    rw [List.range_succ]
    have hx : ¬(x = m) := by omega
    simp [hx, ih (by omega)]

lemma sum_range_indicator_one (x n : Nat) (h : x < n) :
    ((List.range n).map fun d => if x = d then 1 else 0).sum = 1 := by
  induction n with
  | zero => omega
  | succ m ih =>
    rw [List.range_succ]
    by_cases hx : x = m
    · subst hx
      simp [sum_range_indicator_zero x x le_rfl]
    · simp [hx, ih (by omega)]

lemma sum_range_countP (l : List S3Key) (n : Nat) (h : ∀ k ∈ l, slashCount k.key < n) :
    ((List.range n).map fun d => l.countP fun k => slashCount k.key == d).sum = l.length := by
  induction l with
  | nil => simp
  | cons k rest ih =>
    have hmap : ((List.range n).map fun d => (k :: rest).countP fun k2 => slashCount k2.key == d)
        = (List.range n).map fun d =>
            (rest.countP fun k2 => slashCount k2.key == d) + (if slashCount k.key = d then 1 else 0) := by
      refine List.map_congr_left fun d _ => ?_
      rw [List.countP_cons]
      by_cases hd : slashCount k.key = d <;> simp [hd]
    rw [hmap, sum_map_add, ih (fun k2 hk2 => h k2 (List.mem_cons_of_mem _ hk2)),
      sum_range_indicator_one _ _ (h k (List.mem_cons_self _ _))]
    simp

lemma getD_range_map (f : Nat → Nat) (n i : Nat) :
    ((List.range n).map f).getD i 0 = if i < n then f i else 0 := by
  by_cases h : i < n
  · simp [List.getD_eq_getElem?_getD, List.getElem?_map, List.getElem?_range h, h]
  · have hlen : ((List.range n).map f).length ≤ i := by
      simpa [List.length_map, List.length_range] using Nat.le_of_not_lt h
    simp [List.getD_eq_getElem?_getD, List.getElem?_eq_none hlen, h]

/-- C3: for every finite descriptor stream, whether fully consumed or cut
short by cancellation, the model built by `buildModel` counts exactly the
consumed descriptors: `key_count` is their number, the depth slice sums
to `key_count`, and the entry for depth `d` (0 past the end of the
slice) counts the consumed descriptors whose path has exactly `d`
slashes. -/
theorem buildModel_invariants (keys : List S3Key) (abortAfter : Option Nat) :
    (buildModel keys abortAfter).keyCount = (consumedKeys keys abortAfter).length
    ∧ (buildModel keys abortAfter).depths.sum = (buildModel keys abortAfter).keyCount
    ∧ ∀ d, (buildModel keys abortAfter).depths.getD d 0
        = (consumedKeys keys abortAfter).countP fun k => slashCount k.key == d := by
  set l := consumedKeys keys abortAfter with hl
  set st := l.foldl buildStep ⟨fun _ => 0, 0, 0⟩ with hst
  have hb : buildModel keys abortAfter
      = { depths := (List.range (st.maxDepth + 1)).map st.depthMap, keyCount := st.count } := by
    simp [buildModel, buildLoop_eq_foldl, hst, hl]
  have hcount : st.count = l.length := by
    rw [hst, buildFold_count]
    simp
  have hdm : ∀ d, st.depthMap d = l.countP fun k => slashCount k.key == d := by
    intro d
    rw [hst, buildFold_depthMap]
    simp
  have hmax : ∀ k ∈ l, slashCount k.key < st.maxDepth + 1 := by
    intro k hk
    exact Nat.lt_succ_of_le (buildFold_maxDepth_mem l _ k hk)
  have hmap : (List.range (st.maxDepth + 1)).map st.depthMap
      = (List.range (st.maxDepth + 1)).map fun d => l.countP fun k => slashCount k.key == d :=
    List.map_congr_left fun d _ => hdm d
  refine ⟨?_, ?_, ?_⟩
  · rw [hb, hcount]
  · rw [hb]
    show ((List.range (st.maxDepth + 1)).map st.depthMap).sum = st.count
    rw [hmap, sum_range_countP l _ hmax, hcount]
  · intro d
    rw [hb]
    show ((List.range (st.maxDepth + 1)).map st.depthMap).getD d 0 = _
    rw [getD_range_map]
    by_cases hd : d < st.maxDepth + 1
    · rw [if_pos hd, hdm]
    · rw [if_neg hd]
      refine (List.countP_eq_zero.mpr fun k hk => ?_).symm
      have := hmax k hk
      simp only [beq_iff_eq]
      omega

lemma set_append_cons (pre : List Nat) (c : Nat) (cur : List Nat) (a : Nat) :
    (pre ++ c :: cur).set pre.length a = pre ++ a :: cur := by
  induction pre with
  | nil => simp
  | cons p ps ih => simp [List.set, ih]

lemma applyLevels_enumFrom (l : List Nat) (pre cur : List Nat) (hlen : cur.length = l.length) :
    applyLevels ((List.enumFrom pre.length l).map fun ic => ⟨ic.1, ic.2⟩) (pre ++ cur)
      = some (pre ++ l) := by
  induction l generalizing pre cur with
  | nil =>
    cases cur with
    | nil => simp [applyLevels]
    | cons _ _ => simp at hlen
  | cons a rest ih =>
    cases cur with
    | nil => simp at hlen
    | cons c cur2 =>
      have hsetlen : pre.length < (pre ++ c :: cur2).length := by
        simp
      simp only [List.enumFrom, List.map_cons, applyLevels, setLevel, hsetlen, if_pos]
      rw [set_append_cons]
      have hrw : pre ++ a :: cur2 = (pre ++ [a]) ++ cur2 := by simp
      have hrw2 : pre ++ a :: rest = (pre ++ [a]) ++ rest := by simp
      have hlen1 : pre.length + 1 = (pre ++ [a]).length := by simp
      rw [hrw, hrw2, hlen1, ih (pre ++ [a]) cur2 (by simpa using hlen)]

/-- C4: deserializing the serialization of any model reproduces it
exactly: equal counts at equal levels, equal total, equal implied
maximum depth. -/
theorem model_roundtrip (b : bucketModel) :
    unmarshalModel (marshalModel b) = some b := by
  have hlen : (List.replicate ((marshalModel b).depths).length (0 : Nat)).length
      = b.depths.length := by
    simp [marshalModel]
  have h := applyLevels_enumFrom b.depths [] (List.replicate ((marshalModel b).depths).length 0) hlen
  simp only [List.length_nil, List.nil_append] at h
  have henum : (marshalModel b).depths = (List.enumFrom 0 b.depths).map fun ic => ⟨ic.1, ic.2⟩ := by
    simp [marshalModel, List.enum]
  simp only [unmarshalModel, henum] at *
  rw [h]
  simp [marshalModel]

lemma applyLevels_length (recs : List depthLevel) (arr arr2 : List Nat)
    (h : applyLevels recs arr = some arr2) : arr2.length = arr.length := by
  induction recs generalizing arr with
  | nil =>
    simp only [applyLevels, Option.some_inj] at h
    rw [h]
  | cons r rest ih =>
    simp only [applyLevels, setLevel] at h
    by_cases hlt : r.level < arr.length
    · rw [if_pos hlt] at h
      have := ih (arr.set r.level r.count) h
      simpa using this
    · rw [if_neg hlt] at h
      cases h

lemma applyLevels_isSome_iff (recs : List depthLevel) (arr : List Nat) :
    (applyLevels recs arr).isSome ↔ ∀ r ∈ recs, r.level < arr.length := by
  induction recs generalizing arr with
  | nil => simp [applyLevels]
  | cons r rest ih =>
    simp only [applyLevels, setLevel]
    by_cases hlt : r.level < arr.length
    · rw [if_pos hlt]
      simp only [ih (arr.set r.level r.count), List.length_set, List.mem_cons]
      constructor
      · rintro hall r2 (rfl | hr2)
        · exact hlt
        · exact hall r2 hr2
      · intro hall r2 hr2
        exact hall r2 (Or.inr hr2)
    · rw [if_neg hlt]
      simp only [Option.isSome_none, Bool.false_eq_true, false_iff, not_forall]
      exact ⟨r, by simp, by omega⟩

/-- C5 counterexample: the sparse one-record document with a record at
level 1 makes `UnmarshalJSON` index position 1 of the one-element slice
it allocated (a Go panic, `none` here); the claim says it should
succeed. -/
theorem unmarshal_sparse_fails :
    unmarshalModel { depths := [⟨1, 5⟩], keyCount := 5 } = none := by decide

/-- C5 amended: `UnmarshalJSON` allocates a slice sized to the number of
records (not to the maximum level present), so it succeeds exactly when
every record level is below the record count — levels in any order that
form the dense set are fine, but any sparse sequence has a level at or
past the record count and indexes out of bounds.  On success the
reconstructed slice length is the record count and `key_count` is copied
over. -/
theorem unmarshal_inbounds_iff (d : ModelDoc) :
    ((unmarshalModel d).isSome ↔ ∀ r ∈ d.depths, r.level < d.depths.length)
    ∧ ∀ b, unmarshalModel d = some b →
        b.depths.length = d.depths.length ∧ b.keyCount = d.keyCount := by
  constructor
  · rw [unmarshalModel]
    have := applyLevels_isSome_iff d.depths (List.replicate d.depths.length 0)
    simp only [List.length_replicate] at this
    rw [← this]
    cases applyLevels d.depths (List.replicate d.depths.length 0) <;> simp
  · intro b hb
    rw [unmarshalModel] at hb
    cases harr : applyLevels d.depths (List.replicate d.depths.length 0) with
    | none => rw [harr] at hb; cases hb
    | some arr =>
      rw [harr] at hb
      have hlen := applyLevels_length d.depths _ _ harr
      simp only [Option.some_inj] at hb
      subst hb
      simpa using hlen

/-- Witness for the amended C5 theorem at a concrete permuted dense
document. -/
theorem unmarshal_inbounds_iff_witness :
    (unmarshalModel { depths := [⟨2, 7⟩, ⟨0, 1⟩, ⟨1, 3⟩], keyCount := 11 }).isSome = true := by
  have h := (unmarshal_inbounds_iff { depths := [⟨2, 7⟩, ⟨0, 1⟩, ⟨1, 3⟩], keyCount := 11 }).1.mpr
    (by decide)
  simpa using h

/-- Retry bound of the bucket-list wrapper (`RetryLimit = 10`). -/
def RetryLimit : Nat := 10

/-- Embedding of the loop of `listBkt`, with `bkt.List` modelled as the
sequence `list i` of attempt outcomes.  The loop is indexed by the
remaining iteration budget (`RetryLimit - i` for loop counter `i`);
the third component counts the `List` calls performed.  Faithful to the
source: a failed call makes the wrapper return at once with that error
(the response is nil), while a successful call keeps looping,
overwriting the response, until the budget is used up. -/
def listBktLoop {E R : Type} (list : Nat → Except E R) :
    Nat → Nat → Option R → Option R × Option E × Nat
  | 0, i, resp => (resp, none, i)
  | rem + 1, i, _ =>
    match list i with
    | .error e => (none, some e, i + 1)
    | .ok r => listBktLoop list rem (i + 1) (some r)

/-- Embedding of `listBkt`: run the retry loop from attempt 0 with a nil
response. -/
def listBkt {E R : Type} (list : Nat → Except E R) : Option R × Option E × Nat :=
  listBktLoop list RetryLimit 0 none

/-- C1 evaluation at the failing inputs: when the first `List` attempt
fails, `listBkt` returns that error after a single call, performing no
retry at all; when the attempts succeed, it performs all ten calls and
returns the tenth response, not the first.  This contradicts the claimed
retry discipline (retry after a failed attempt, short-circuit on the
first success); the spec itself notes the source wrapper is a slip. -/
theorem listBkt_retry_divergence :
    listBkt (fun _ => (.error "boom" : Except String Nat)) = (none, some "boom", 1)
    ∧ listBkt (fun i => (.ok i : Except String Nat)) = (some 9, none, 10) := by
  constructor <;> rfl

/-- Embedding of the `awsConfig` struct. -/
structure awsConfig where
  bucket : String
  region : String
  accessKey : String
  secretKey : String
deriving DecidableEq, Repr

/-- Embedding of the intermediate decoded form inside `loadConfig`: the
duration fields still carry their unparsed strings. -/
structure rawConfig where
  randomSeed : Int
  checkCount : Nat
  checkYoungest : String
  checkOldest : String
  checkFrequency : String
  source : awsConfig
  destination : awsConfig
deriving DecidableEq, Repr

/-- Embedding of the `config` struct; durations are `time.Duration`
nanosecond counts (`Int`). -/
structure config where
  randomSeed : Int
  checkCount : Int
  checkYoungest : Int
  checkOldest : Int
  checkFrequency : Int
  source : awsConfig
  destination : awsConfig
deriving DecidableEq, Repr

/-- Embedding of `loadConfig`.  The JSON decoder and `time.ParseDuration`
are external collaborators, passed as the already attempted decode
result and a duration parser.  Mirrors the source order: decode, parse
`check_youngest`, parse `check_oldest`, reject `oldest <= youngest`,
parse `check_frequency`.  The source never copies `random_seed` into the
struct it returns, so the field stays zero. -/
def loadConfig (decoded : Except String rawConfig)
    (parseDuration : String → Except String Int) : Except String config :=
  match decoded with
  | .error e => .error e
  | .ok d =>
    match parseDuration d.checkYoungest with
    | .error e => .error e
    | .ok youngest =>
      match parseDuration d.checkOldest with
      | .error e => .error e
      | .ok oldest =>
        if oldest ≤ youngest then
          .error "cannot look for events where oldest is less or equal to youngest"
        else
          match parseDuration d.checkFrequency with
          | .error e => .error e
          | .ok freq =>
            .ok { randomSeed := 0, checkCount := (d.checkCount : Int),
                  checkYoungest := youngest, checkOldest := oldest,
                  checkFrequency := freq, source := d.source,
                  destination := d.destination }

/-- C8 counterexample: a document whose parsed `check_youngest` is the
negative duration -1h (so the claimed invariant, which requires both
durations positive, is violated) is accepted by `loadConfig` because the
code only compares the two durations and never checks positivity. -/
theorem loadConfig_positivity_unchecked :
    loadConfig
      (.ok ⟨7, 1, "-1h", "1h", "1s", ⟨"s", "r", "a", "k"⟩, ⟨"d", "r", "a", "k"⟩⟩)
      (fun s => if s = "1h" then .ok 3600000000000
        else if s = "-1h" then .ok (-3600000000000) else .ok 1000000000)
    = .ok ⟨0, 1, -3600000000000, 3600000000000, 1000000000,
        ⟨"s", "r", "a", "k"⟩, ⟨"d", "r", "a", "k"⟩⟩ := by
  rfl

/-- C8 amended: once the document decodes and all three durations parse,
`loadConfig` fails exactly when the parsed `check_oldest` is less than
or equal to the parsed `check_youngest`, with the fatal config error,
and otherwise returns the parsed configuration; positivity of the
durations is not validated. -/
theorem loadConfig_invariant (d : rawConfig) (parseDuration : String → Except String Int)
    (youngest oldest freq : Int)
    (hy : parseDuration d.checkYoungest = .ok youngest)
    (ho : parseDuration d.checkOldest = .ok oldest)
    (hf : parseDuration d.checkFrequency = .ok freq) :
    (oldest ≤ youngest →
      loadConfig (.ok d) parseDuration
        = .error "cannot look for events where oldest is less or equal to youngest")
    ∧ (youngest < oldest →
      loadConfig (.ok d) parseDuration
        = .ok { randomSeed := 0, checkCount := (d.checkCount : Int),
                checkYoungest := youngest, checkOldest := oldest,
                checkFrequency := freq, source := d.source,
                destination := d.destination }) := by
  simp only [loadConfig, hy, ho, hf]
  constructor
  · intro h
    rw [if_pos h]
  · intro h
    rw [if_neg (not_le.mpr h)]

/-- Witness for the amended C8 theorem on a concrete well-formed
document (`check_youngest = 1h`, `check_oldest = 48h`). -/
theorem loadConfig_invariant_witness :
    loadConfig
      (.ok ⟨0, 2, "1h", "48h", "1m", ⟨"s", "r", "a", "k"⟩, ⟨"d", "r", "a", "k"⟩⟩)
      (fun s => if s = "1h" then .ok 3600000000000
        else if s = "48h" then .ok 172800000000000 else .ok 60000000000)
    = .ok ⟨0, 2, 3600000000000, 172800000000000, 60000000000,
        ⟨"s", "r", "a", "k"⟩, ⟨"d", "r", "a", "k"⟩⟩ :=
  (loadConfig_invariant _ _ _ _ _ (by rfl) (by rfl) (by rfl)).2 (by decide)

/-- Value stored in a `log.Fields` map: the program logs strings (key
names, etags) and int64 sizes. -/
inductive FieldVal where
  | str (s : String)
  | int (n : Int)
deriving DecidableEq, Repr

/-- Error-level mismatch log entries emitted by `verifier.verifyKey`
(the mismatch log; debug-level tracing is not part of it). -/
inductive LogEvent where
  | missingAtDestination (key : String)
  | ambiguousAtDestination (key : String)
  | fieldMismatch (fields : List (String × FieldVal))
deriving DecidableEq, Repr

/-- Embedding of the `logFields` accumulation of `verifyKey`: for each
differing field, both the wanted and the got value are recorded. -/
def mismatchFields (want got : S3Key) : List (String × FieldVal) :=
  (if want.etag ≠ got.etag then
    [("want.etag", FieldVal.str want.etag), ("got.etag", FieldVal.str got.etag)]
  else [])
  ++ (if want.size ≠ got.size then
    [("want.size", FieldVal.int want.size), ("got.size", FieldVal.int got.size)]
  else [])

/-- Embedding of `verifier.verifyKey`: list the destination through the
`listBkt` wrapper (modelled by the attempt sequence `dstList`), then
report the outcome.  Returns the error (only a listing error) and the
mismatch log entries.  The `(none, none, _)` branch is unreachable for
`RetryLimit = 10`. -/
def verifyKey {E : Type} (dstList : Nat → Except E ListResp) (want : S3Key) :
    Option E × List LogEvent :=
  match listBkt dstList with
  | (_, some e, _) => (some e, [])
  | (none, none, _) => (none, [])
  | (some res, none, _) =>
    match res.contents with
    | [] => (none, [LogEvent.missingAtDestination want.key])
    | _ :: _ :: _ => (none, [LogEvent.ambiguousAtDestination want.key])
    | [got] =>
      let logFields := mismatchFields want got
      if logFields = [] then (none, [])
      else (none, [LogEvent.fieldMismatch (logFields ++ [("key", FieldVal.str want.key)])])

lemma mismatchFields_nil_iff (want got : S3Key) :
    mismatchFields want got = [] ↔ want.etag = got.etag ∧ want.size = got.size := by
  rw [mismatchFields]
  by_cases he : want.etag = got.etag <;> by_cases hs : want.size = got.size <;>
    simp [he, hs]

/-- C7: whatever key is checked, `verifyKey` returns an error only when
the destination listing does; when the listing succeeds it never errors
and logs by case: no content logs `MISSING_AT_DESTINATION`, two or more
log `AMBIGUOUS_AT_DESTINATION`, exactly one content with equal etag and
size logs nothing, and exactly one differing content logs
`FIELD_MISMATCH` carrying both the wanted and got values of every
differing field. -/
theorem verifyKey_spec {E : Type} (dstList : Nat → Except E ListResp) (want : S3Key) :
    (∀ e, (verifyKey dstList want).1 = some e → (listBkt dstList).2.1 = some e)
    ∧ ∀ res n, listBkt dstList = (some res, none, n) →
        (verifyKey dstList want).1 = none
        ∧ (res.contents = [] →
            (verifyKey dstList want).2 = [LogEvent.missingAtDestination want.key])
        ∧ (∀ g1 g2 rest, res.contents = g1 :: g2 :: rest →
            (verifyKey dstList want).2 = [LogEvent.ambiguousAtDestination want.key])
        ∧ (∀ got, res.contents = [got] → want.etag = got.etag → want.size = got.size →
            (verifyKey dstList want).2 = [])
        ∧ (∀ got, res.contents = [got] → want.etag ≠ got.etag ∨ want.size ≠ got.size →
            (verifyKey dstList want).2
              = [LogEvent.fieldMismatch
                  (mismatchFields want got ++ [("key", FieldVal.str want.key)])]
            ∧ (want.etag ≠ got.etag →
                ("want.etag", FieldVal.str want.etag) ∈ mismatchFields want got
                ∧ ("got.etag", FieldVal.str got.etag) ∈ mismatchFields want got)
            ∧ (want.size ≠ got.size →
                ("want.size", FieldVal.int want.size) ∈ mismatchFields want got
                ∧ ("got.size", FieldVal.int got.size) ∈ mismatchFields want got)) := by
  constructor
  · intro e he
    rcases hlb : listBkt dstList with ⟨r, er, cnt⟩
    rw [verifyKey, hlb] at he
    cases er with
    | some e2 =>
      simp only at he
      simp only [Option.some_inj] at he
      subst he
      rfl
    | none =>
      exfalso
      cases r with
      | none => simp at he
      | some res =>
        simp only at he
        cases hc : res.contents with
        | nil => rw [hc] at he; simp at he
        | cons g rest =>
          cases rest with
          | nil =>
            rw [hc] at he
            simp only at he
            by_cases hf : mismatchFields want g = []
            · rw [if_pos hf] at he
              simp at he
            · rw [if_neg hf] at he
              simp at he
          | cons g2 rest2 => rw [hc] at he; simp at he
  · intro res n hok
    have hred : verifyKey dstList want
        = match res.contents with
          | [] => (none, [LogEvent.missingAtDestination want.key])
          | _ :: _ :: _ => (none, [LogEvent.ambiguousAtDestination want.key])
          | [got] =>
            let logFields := mismatchFields want got
            if logFields = [] then (none, [])
            else (none,
              [LogEvent.fieldMismatch (logFields ++ [("key", FieldVal.str want.key)])]) := by
      rw [verifyKey, hok]
    refine ⟨?_, ?_, ?_, ?_, ?_⟩
    · rw [hred]
      cases hc : res.contents with
      | nil => simp
      | cons g rest =>
        cases rest with
        | nil =>
          simp only
          by_cases hf : mismatchFields want g = []
          · rw [if_pos hf]
          · rw [if_neg hf]
        | cons g2 rest2 => simp
    · intro hc
      rw [hred, hc]
    · intro g1 g2 rest hc
      rw [hred, hc]
    · intro got hc het hsz
      rw [hred, hc]
      simp only
      rw [if_pos ((mismatchFields_nil_iff want got).mpr ⟨het, hsz⟩)]
    · intro got hc hdiff
      have hf : mismatchFields want got ≠ [] := by
        intro hnil
        rcases (mismatchFields_nil_iff want got).mp hnil with ⟨he2, hs2⟩
        rcases hdiff with h | h
        · exact h he2
        · exact h hs2
      refine ⟨?_, ?_, ?_⟩
      · rw [hred, hc]
        simp only
        rw [if_neg hf]
      · intro hne
        constructor <;> · rw [mismatchFields]
                          simp [hne]
      · intro hne
        constructor <;> · rw [mismatchFields]
                          simp [hne]

/-- Witness for C7: a destination holding one copy of key `k` with a
different etag yields no error and exactly one `FIELD_MISMATCH` entry
carrying both etags. -/
theorem verifyKey_spec_witness :
    (verifyKey (fun _ => (.ok ⟨[⟨"k", "t", "E2", 10⟩], []⟩ : Except String ListResp))
        ⟨"k", "t", "E1", 10⟩).1 = none
    ∧ (verifyKey (fun _ => (.ok ⟨[⟨"k", "t", "E2", 10⟩], []⟩ : Except String ListResp))
        ⟨"k", "t", "E1", 10⟩).2
      = [LogEvent.fieldMismatch
          [("want.etag", FieldVal.str "E1"), ("got.etag", FieldVal.str "E2"),
            ("key", FieldVal.str "k")]] := by
  have h := (verifyKey_spec
    (fun _ => (.ok ⟨[⟨"k", "t", "E2", 10⟩], []⟩ : Except String ListResp))
    ⟨"k", "t", "E1", 10⟩).2 ⟨[⟨"k", "t", "E2", 10⟩], []⟩ 10 (by rfl)
  refine ⟨h.1, ?_⟩
  have h3 := (h.2.2.2.2 ⟨"k", "t", "E2", 10⟩ rfl (Or.inl (by decide))).1
  rw [h3]
  rfl

/-- Abstract embedding of `rand.Rand`: a stream of `Float64` draws (as
rationals; every real draw is one of these) and of `Intn` draws, indexed
by the number of values consumed so far.  Every theorem about the
sampler is proved for every stream, hence in particular for the real
generator. -/
structure Rng where
  floats : Nat → Rat
  ints : Nat → Nat → Nat
  pos : Nat

/-- Consume one position of the stream. -/
def Rng.advance (r : Rng) : Rng :=
  { r with pos := r.pos + 1 }

/-- One `r.Float64()` draw. -/
def nextFloat64 (r : Rng) : Rat × Rng :=
  (r.floats r.pos, r.advance)

/-- One `r.Intn(n)` draw; the reduction modulo `n` keeps the abstract
stream inside the `[0, n)` range `Intn` guarantees. -/
def intn (r : Rng) (n : Nat) : Nat × Rng :=
  (r.ints r.pos n % n, r.advance)

/-- In-place swap of two slice positions, as performed by the shuffle
loops; indices out of range leave the list unchanged (the shuffle only
produces in-range indices). -/
def listSwap {α : Type} (l : List α) (i j : Nat) : List α :=
  match l.get? i, l.get? j with
  | some a, some b => (l.set i b).set j a
  | _, _ => l

/-- Body of one iteration of the Fisher-Yates loop shared by `shuffle`
and `shuffleKeys`: draw `j := r.Intn(i+1)` and swap positions `i` and
`j`. -/
def shuffleStep {α : Type} (st : List α × Rng) (i : Nat) : List α × Rng :=
  (listSwap st.1 i (intn st.2 (i + 1)).1, (intn st.2 (i + 1)).2)

/-- Embedding of the Fisher-Yates shuffle of `shuffle` (strings) and
`shuffleKeys` (keys): for each index of the slice, swap it with a
random earlier-or-equal position. -/
def shuffleGo {α : Type} (r : Rng) (arr : List α) : List α × Rng :=
  (List.range arr.length).foldl shuffleStep (arr, r)

lemma listSwap_length {α : Type} (l : List α) (i j : Nat) :
    (listSwap l i j).length = l.length := by
  rw [listSwap]
  cases l.get? i <;> cases l.get? j <;> simp

lemma listSwap_mem {α : Type} (l : List α) (i j : Nat) (x : α)
    (hx : x ∈ listSwap l i j) : x ∈ l := by
  rw [listSwap] at hx
  cases hi : l.get? i with
  | none => rw [hi] at hx; exact hx
  | some a =>
    cases hj : l.get? j with
    | none => rw [hi, hj] at hx; exact hx
    | some b =>
      rw [hi, hj] at hx
      simp only at hx
      rcases List.mem_or_eq_of_mem_set hx with hx2 | hx2
      · rcases List.mem_or_eq_of_mem_set hx2 with hx3 | hx3
        · exact hx3
        · exact hx3 ▸ List.get?_mem hj
      · exact hx2 ▸ List.get?_mem hi

lemma shuffleFold_length {α : Type} (idxs : List Nat) (st : List α × Rng) :
    (idxs.foldl shuffleStep st).1.length = st.1.length := by
  induction idxs generalizing st with
  | nil => rfl
  | cons i rest ih =>
    rw [List.foldl_cons, ih]
    simp [shuffleStep, listSwap_length]

lemma shuffleFold_mem {α : Type} (idxs : List Nat) (st : List α × Rng) (x : α)
    (hx : x ∈ (idxs.foldl shuffleStep st).1) : x ∈ st.1 := by
  induction idxs generalizing st with
  | nil => exact hx
  | cons i rest ih =>
    rw [List.foldl_cons] at hx
    exact listSwap_mem _ _ _ _ (ih _ hx)

lemma shuffleGo_length {α : Type} (r : Rng) (arr : List α) :
    (shuffleGo r arr).1.length = arr.length := by
  rw [shuffleGo, shuffleFold_length]

lemma shuffleGo_mem {α : Type} (r : Rng) (arr : List α) (x : α)
    (hx : x ∈ (shuffleGo r arr).1) : x ∈ arr := by
  rw [shuffleGo] at hx
  exact shuffleFold_mem _ _ _ hx

/-- Embedding of `filterKeys`: keep the candidates accepted by the
constraint, in order (the Go error result is always nil and is
omitted). -/
def filterKeys : List S3Key → (S3Key → Bool) → List S3Key
  | [], _ => []
  | k :: rest, accept =>
    if accept k then k :: filterKeys rest accept else filterKeys rest accept

lemma filterKeys_accept (l : List S3Key) (accept : S3Key → Bool) (k : S3Key)
    (hk : k ∈ filterKeys l accept) : accept k = true := by
  induction l with
  | nil => cases hk
  | cons a rest ih =>
    rw [filterKeys] at hk
    by_cases ha : accept a
    · rw [if_pos ha] at hk
      rcases List.mem_cons.mp hk with h | h
      · exact h ▸ ha
      · exact ih h
    · rw [if_neg ha] at hk
      exact ih hk

/-- The finite prefix tree served by the source-bucket lister: each node
holds the contents listed directly under a prefix and the subtrees of
its common prefixes.  A `walkNode` recursion into a common prefix lists
the corresponding subtree. -/
inductive PrefixTree where
  | node (contents : List S3Key) (children : List (String × PrefixTree))

mutual

def treeSize : PrefixTree → Nat
  | .node _ children => 1 + children.length + sizeChildren children

def sizeChildren : List (String × PrefixTree) → Nat
  | [] => 0
  | c :: rest => treeSize c.2 + sizeChildren rest

end

/-- Subtree served by the lister for a common prefix of the current
node. -/
def lookupChild : List (String × PrefixTree) → String → Option PrefixTree
  | [], _ => none
  | c :: rest, pfx => if c.1 = pfx then some c.2 else lookupChild rest pfx

lemma treeSize_pos (t : PrefixTree) : 1 ≤ treeSize t := by
  cases t with
  | node contents children => rw [treeSize]; omega

lemma lookupChild_size (cs : List (String × PrefixTree)) (pfx : String) (t : PrefixTree)
    (h : lookupChild cs pfx = some t) : treeSize t ≤ sizeChildren cs := by
  induction cs with
  | nil => cases h
  | cons c rest ih =>
    rw [lookupChild] at h
    rw [sizeChildren]
    by_cases hc : c.1 = pfx
    · rw [if_pos hc] at h
      cases h
      omega
    · rw [if_neg hc] at h
      have := ih h
      omega

/-- Maximum number of keys accepted from one LIST call (`MaxList`); the
tree lister serves at most this many contents per node. -/
def MaxList : Nat := 10000

/-- Embedding of the `maybePickKey` closure of `sampleRandomKey`: roll
`dice := r.Float64()` and accept when `dice <= p` for
`p := probThatKeyAtDepth(depth)` (the key argument is only logged). -/
def maybePickKey (m : bucketModel) (r : Rng) (depth : Nat) (_key : S3Key) : Bool × Rng :=
  ((nextFloat64 r).1 ≤ probThatKeyAtDepth m depth, (nextFloat64 r).2)

/-- Embedding of the candidate loop of `walkNode`: return the first
shuffled candidate whose dice roll succeeds. -/
def pickCandidates (m : bucketModel) (depth : Nat) : Rng → List S3Key → Option S3Key × Rng
  | r, [] => (none, r)
  | r, key :: rest =>
    if (maybePickKey m r depth key).1 then (some key, (maybePickKey m r depth key).2)
    else pickCandidates m depth (maybePickKey m r depth key).2 rest

/-- Result of one `walkNode` call: the Go return values `(key, found)`
(the lister embedded as a tree never fails, so the error result is
always nil and omitted), plus the threaded rng state and the number of
list calls performed (observing the effect for the cancellation
claims). -/
structure WalkOut where
  key : Option S3Key
  found : Bool
  rng : Rng
  listed : Nat

mutual

/-- Embedding of the recursive `walkNode` closure of `sampleRandomKey`
on the prefix tree served by the lister: check the abort channel, list
the node (contents and common prefixes, up to `MaxList`), filter and
shuffle the candidates, roll dice over them in order, and otherwise
recurse into the shuffled common prefixes at `depth+1`.  The recursion
is well founded on the finite tree, which is the termination argument
of the walk. -/
def walkNode (m : bucketModel) (accept : S3Key → Bool) (abort : Bool) (r : Rng)
    (depth : Nat) (t : PrefixTree) : WalkOut :=
  if abort then ⟨none, false, r, 0⟩
  else
    match t with
    | .node contents children =>
      match pickCandidates m depth (shuffleGo r (filterKeys contents accept)).2
          (shuffleGo r (filterKeys contents accept)).1 with
      | (some k, r2) => ⟨some k, true, r2, 1⟩
      | (none, r2) =>
        let res := walkChildren m accept abort children
          (shuffleGo r2 (children.map Prod.fst)).2 depth
          (shuffleGo r2 (children.map Prod.fst)).1
        ⟨res.key, res.found, res.rng, res.listed + 1⟩
termination_by treeSize t
decreasing_by
  simp_wf
  rw [shuffleGo_length, List.length_map, treeSize]
  omega

/-- Embedding of the common-prefix loop of `walkNode`: recurse into each
shuffled prefix in order, short-circuiting on the first found key; a
prefix the lister does not serve a subtree for (impossible for the
responses the tree produces) contributes nothing. -/
def walkChildren (m : bucketModel) (accept : S3Key → Bool) (abort : Bool)
    (children : List (String × PrefixTree)) (r : Rng) (depth : Nat)
    (pfxs : List String) : WalkOut :=
  match pfxs with
  | [] => ⟨none, false, r, 0⟩
  | pfx :: rest =>
    match hl : lookupChild children pfx with
    | none => walkChildren m accept abort children r depth rest
    | some t2 =>
      let res := walkNode m accept abort r (depth + 1) t2
      if res.found then res
      else
        let res2 := walkChildren m accept abort children res.rng depth rest
        ⟨res2.key, res2.found, res2.rng, res.listed + res2.listed⟩
termination_by sizeChildren children + pfxs.length
decreasing_by
  · simp_wf
  · simp_wf
    have := lookupChild_size children pfx t2 hl
    simp [List.length_cons]
    omega
  · simp_wf

end

/-- Embedding of `sampleRandomKey`: run the walk from the root prefix
`"/"` at depth 0 and translate its outcome exactly as the source does:
a not-found walk yields the `NO_KEY_SELECTED` error, a found walk
yields the key.  The components are `(key, err, rng, list calls)`. -/
def sampleRandomKey (m : bucketModel) (accept : S3Key → Bool) (abort : Bool)
    (r : Rng) (t : PrefixTree) : Option S3Key × Option String × Rng × Nat :=
  if !(walkNode m accept abort r 0 t).found then
    (none, some "traversed whole bucket without choosing a key",
      (walkNode m accept abort r 0 t).rng, (walkNode m accept abort r 0 t).listed)
  else
    ((walkNode m accept abort r 0 t).key, none,
      (walkNode m accept abort r 0 t).rng, (walkNode m accept abort r 0 t).listed)

lemma walkNode_abort (m : bucketModel) (accept : S3Key → Bool) (r : Rng) (depth : Nat)
    (t : PrefixTree) : walkNode m accept true r depth t = ⟨none, false, r, 0⟩ := by
  cases t with
  | node contents children =>
    rw [walkNode]
    simp

lemma walkChildren_nil (m : bucketModel) (accept : S3Key → Bool) (abort : Bool)
    (children : List (String × PrefixTree)) (r : Rng) (depth : Nat) :
    walkChildren m accept abort children r depth [] = ⟨none, false, r, 0⟩ := by
  rw [walkChildren]

lemma walkNode_unfold (m : bucketModel) (accept : S3Key → Bool) (r : Rng) (depth : Nat)
    (contents : List S3Key) (children : List (String × PrefixTree)) :
    walkNode m accept false r depth (.node contents children)
      = match pickCandidates m depth (shuffleGo r (filterKeys contents accept)).2
          (shuffleGo r (filterKeys contents accept)).1 with
        | (some k, r2) => ⟨some k, true, r2, 1⟩
        | (none, r2) =>
          let res := walkChildren m accept false children
            (shuffleGo r2 (children.map Prod.fst)).2 depth
            (shuffleGo r2 (children.map Prod.fst)).1
          ⟨res.key, res.found, res.rng, res.listed + 1⟩ := by
  rw [walkNode]
  simp

lemma walkChildren_cons_none (m : bucketModel) (accept : S3Key → Bool) (abort : Bool)
    (children : List (String × PrefixTree)) (r : Rng) (depth : Nat)
    (pfx : String) (rest : List String) (h : lookupChild children pfx = none) :
    walkChildren m accept abort children r depth (pfx :: rest)
      = walkChildren m accept abort children r depth rest := by
  rw [walkChildren, h]

lemma walkChildren_cons_some (m : bucketModel) (accept : S3Key → Bool) (abort : Bool)
    (children : List (String × PrefixTree)) (r : Rng) (depth : Nat)
    (pfx : String) (rest : List String) (t2 : PrefixTree)
    (h : lookupChild children pfx = some t2) :
    walkChildren m accept abort children r depth (pfx :: rest)
      = (if (walkNode m accept abort r (depth + 1) t2).found then
          walkNode m accept abort r (depth + 1) t2
        else
          ⟨(walkChildren m accept abort children
              (walkNode m accept abort r (depth + 1) t2).rng depth rest).key,
            (walkChildren m accept abort children
              (walkNode m accept abort r (depth + 1) t2).rng depth rest).found,
            (walkChildren m accept abort children
              (walkNode m accept abort r (depth + 1) t2).rng depth rest).rng,
            (walkNode m accept abort r (depth + 1) t2).listed
              + (walkChildren m accept abort children
                  (walkNode m accept abort r (depth + 1) t2).rng depth rest).listed⟩) := by
  rw [walkChildren, h]

lemma pickCandidates_some_mem (m : bucketModel) (depth : Nat) (l : List S3Key) :
    ∀ (r : Rng) (k : S3Key) (r2 : Rng), pickCandidates m depth r l = (some k, r2) → k ∈ l := by
  induction l with
  | nil =>
    intro r k r2 h
    rw [pickCandidates] at h
    simp at h
  | cons a rest ih =>
    intro r k r2 h
    rw [pickCandidates] at h
    by_cases hp : (maybePickKey m r depth a).1
    · rw [if_pos hp] at h
      simp only [Prod.mk.injEq, Option.some_inj] at h
      exact h.1 ▸ List.mem_cons_self a rest
    · rw [if_neg hp] at h
      exact List.mem_cons_of_mem _ (ih _ _ _ h)

lemma walk_invariant (N : Nat) :
    (∀ (m : bucketModel) (accept : S3Key → Bool) (abort : Bool) (r : Rng) (depth : Nat)
        (t : PrefixTree), treeSize t ≤ N →
        (∀ k, (walkNode m accept abort r depth t).key = some k → accept k = true)
        ∧ ((walkNode m accept abort r depth t).found = true
            ↔ ((walkNode m accept abort r depth t).key).isSome = true))
    ∧ (∀ (m : bucketModel) (accept : S3Key → Bool) (abort : Bool)
        (children : List (String × PrefixTree)) (r : Rng) (depth : Nat)
        (pfxs : List String), sizeChildren children + pfxs.length ≤ N →
        (∀ k, (walkChildren m accept abort children r depth pfxs).key = some k →
          accept k = true)
        ∧ ((walkChildren m accept abort children r depth pfxs).found = true
            ↔ ((walkChildren m accept abort children r depth pfxs).key).isSome = true)) := by
  induction N using Nat.strong_induction_on with
  | _ N ih =>
    constructor
    · intro m accept abort r depth t hN
      cases abort with
      | true =>
        rw [walkNode_abort]
        simp
      | false =>
        cases t with
        | node contents children =>
          rw [walkNode_unfold]
          cases hp : pickCandidates m depth (shuffleGo r (filterKeys contents accept)).2
              (shuffleGo r (filterKeys contents accept)).1 with
          | mk ok r2 =>
            cases ok with
            | some k2 =>
              simp only
              constructor
              · intro k hk
                simp only [Option.some_inj] at hk
                subst hk
                have hmem := pickCandidates_some_mem m depth _ _ _ _ hp
                exact filterKeys_accept _ _ _ (shuffleGo_mem _ _ _ hmem)
              · simp
            | none =>
              simp only
              rw [treeSize] at hN
              have hM : sizeChildren children
                  + (shuffleGo r2 (children.map Prod.fst)).1.length < N := by
                rw [shuffleGo_length, List.length_map]
                omega
              have hrec := (ih _ hM).2 m accept false children
                (shuffleGo r2 (children.map Prod.fst)).2 depth
                (shuffleGo r2 (children.map Prod.fst)).1 (le_refl _)
              exact ⟨hrec.1, hrec.2⟩
    · intro m accept abort children r depth pfxs hN
      cases pfxs with
      | nil =>
        rw [walkChildren_nil]
        simp
      | cons pfx rest =>
        rw [List.length_cons] at hN
        cases hl2 : lookupChild children pfx with
        | none =>
          rw [walkChildren_cons_none _ _ _ _ _ _ _ _ hl2]
          exact (ih (sizeChildren children + rest.length) (by omega)).2 m accept abort
            children r depth rest (le_refl _)
        | some t2 =>
          rw [walkChildren_cons_some _ _ _ _ _ _ _ _ _ hl2]
          have ht2 : treeSize t2 ≤ sizeChildren children := lookupChild_size _ _ _ hl2
          have h1 : 1 ≤ treeSize t2 := treeSize_pos t2
          have hA := (ih (treeSize t2) (by omega)).1 m accept abort r (depth + 1) t2
            (le_refl _)
          by_cases hf : (walkNode m accept abort r (depth + 1) t2).found
          · rw [if_pos hf]
            exact hA
          · rw [if_neg hf]
            have hB := (ih (sizeChildren children + rest.length) (by omega)).2 m accept
              abort children (walkNode m accept abort r (depth + 1) t2).rng depth rest
              (le_refl _)
            exact ⟨hB.1, hB.2⟩

/-- C2: for every finite prefix tree served by the lister, every
predicate and every rng stream, the random walk terminates (it is the
total well-founded recursion `walkNode` on the finite tree, each node
visited at most once per call) and `sampleRandomKey` resolves its
outcome definitely: a traversal of the whole tree without a pick (the
walk reports not-found in a run without cancellation) returns exactly
the `NO_KEY_SELECTED` error and no key, and a walk that picked returns
a key and no error. -/
theorem sampleRandomKey_exhaustion (m : bucketModel) (accept : S3Key → Bool)
    (r : Rng) (t : PrefixTree) :
    ((walkNode m accept false r 0 t).found = false →
      sampleRandomKey m accept false r t
        = (none, some "traversed whole bucket without choosing a key",
            (walkNode m accept false r 0 t).rng, (walkNode m accept false r 0 t).listed))
    ∧ ((walkNode m accept false r 0 t).found = true →
      ∃ k, sampleRandomKey m accept false r t
        = (some k, none, (walkNode m accept false r 0 t).rng,
            (walkNode m accept false r 0 t).listed)) := by
  constructor
  · intro h
    rw [sampleRandomKey, h]
    simp
  · intro h
    have hiff := ((walk_invariant (treeSize t)).1 m accept false r 0 t (le_refl _)).2
    obtain ⟨k, hk⟩ := Option.isSome_iff_exists.mp (hiff.mp h)
    refine ⟨k, ?_⟩
    rw [sampleRandomKey, h, hk]
    simp

/-- Witness for C2: with a predicate rejecting every candidate, the walk
over a one-key tree exhausts and the sampler reports the
`NO_KEY_SELECTED` error. -/
theorem sampleRandomKey_exhaustion_witness :
    sampleRandomKey ⟨[1], 1⟩ (fun _ => false) false ⟨fun _ => 0, fun _ _ => 0, 0⟩
        (.node [⟨"a", "", "", 0⟩] [])
      = (none, some "traversed whole bucket without choosing a key",
          ⟨fun _ => 0, fun _ _ => 0, 0⟩, 1) := by
  have hw : walkNode ⟨[1], 1⟩ (fun _ => false) false ⟨fun _ => 0, fun _ _ => 0, 0⟩ 0
      (.node [⟨"a", "", "", 0⟩] [])
      = ⟨none, false, ⟨fun _ => 0, fun _ _ => 0, 0⟩, 1⟩ := by
    rw [walkNode_unfold]
    simp [filterKeys, shuffleGo, pickCandidates, walkChildren_nil]
  have h := (sampleRandomKey_exhaustion ⟨[1], 1⟩ (fun _ => false)
      ⟨fun _ => 0, fun _ _ => 0, 0⟩ (.node [⟨"a", "", "", 0⟩] [])).1 (by rw [hw])
  rw [h, hw]

/-- C6 counterexample: with the cancellation signal asserted before the
first list call, `sampleRandomKey` performs no listing (0 list calls),
but its result is the `NO_KEY_SELECTED` error — an error produced by
cancellation alone — and not the claimed error-free no-key result. -/
theorem sampleRandomKey_abort_is_error :
    sampleRandomKey ⟨[1], 1⟩ (fun _ => true) true ⟨fun _ => 0, fun _ _ => 0, 0⟩
        (.node [⟨"a", "", "", 0⟩] [])
      = (none, some "traversed whole bucket without choosing a key",
          ⟨fun _ => 0, fun _ _ => 0, 0⟩, 0) := by
  rw [sampleRandomKey, walkNode_abort]
  simp

/-- C6 amended: with cancellation asserted before the first list call,
the sampler performs no listing and the inner walk returns no key and
no error, but `sampleRandomKey` then converts the not-found walk into
the `NO_KEY_SELECTED` error, so cancellation alone does produce an
error from the sampler. -/
theorem sampleRandomKey_abort (m : bucketModel) (accept : S3Key → Bool) (r : Rng)
    (t : PrefixTree) :
    walkNode m accept true r 0 t = ⟨none, false, r, 0⟩
    ∧ sampleRandomKey m accept true r t
      = (none, some "traversed whole bucket without choosing a key", r, 0) := by
  refine ⟨walkNode_abort m accept r 0 t, ?_⟩
  rw [sampleRandomKey, walkNode_abort]
  simp

/-- C9: whatever the lister tree, model, rng stream and cancellation
state, a key returned by `sampleRandomKey` satisfies the predicate: a
returned key is always drawn from the accept-filtered candidate list of
some node. -/
theorem sampleRandomKey_accept (m : bucketModel) (accept : S3Key → Bool) (abort : Bool)
    (r : Rng) (t : PrefixTree) (k : S3Key)
    (h : (sampleRandomKey m accept abort r t).1 = some k) : accept k = true := by
  rw [sampleRandomKey] at h
  cases hfound : (walkNode m accept abort r 0 t).found with
  | false =>
    rw [hfound] at h
    simp at h
  | true =>
    rw [hfound] at h
    simp only [Bool.not_true, Bool.false_eq_true, if_false] at h
    exact ((walk_invariant (treeSize t)).1 m accept abort r 0 t (le_refl _)).1 k h

/-- Witness for C9: a one-key tree with `P(0) = 1` and an accept-all
predicate yields that key, and the theorem instantiates on it. -/
theorem sampleRandomKey_accept_witness :
    (sampleRandomKey ⟨[1], 1⟩ (fun _ => true) false ⟨fun _ => 0, fun _ _ => 0, 0⟩
        (.node [⟨"a", "", "", 0⟩] [])).1 = some ⟨"a", "", "", 0⟩
    ∧ (fun _ : S3Key => true) ⟨"a", "", "", 0⟩ = true := by
  have hw : walkNode ⟨[1], 1⟩ (fun _ => true) false ⟨fun _ => 0, fun _ _ => 0, 0⟩ 0
      (.node [⟨"a", "", "", 0⟩] [])
      = ⟨some ⟨"a", "", "", 0⟩, true, ⟨fun _ => 0, fun _ _ => 0, 2⟩, 1⟩ := by
    rw [walkNode_unfold]
    have hsh : shuffleGo ⟨fun _ => 0, fun _ _ => 0, 0⟩
        (filterKeys [⟨"a", "", "", 0⟩] (fun _ => true))
        = ([⟨"a", "", "", 0⟩], ⟨fun _ => 0, fun _ _ => 0, 1⟩) := by
      simp [filterKeys, shuffleGo, shuffleStep, intn, listSwap, Rng.advance]
      rfl
    rw [hsh]
    have hpick : pickCandidates ⟨[1], 1⟩ 0 ⟨fun _ => 0, fun _ _ => 0, 1⟩ [⟨"a", "", "", 0⟩]
        = (some ⟨"a", "", "", 0⟩, ⟨fun _ => 0, fun _ _ => 0, 2⟩) := by
      rw [pickCandidates]
      have hmp : (maybePickKey ⟨[1], 1⟩ ⟨fun _ => 0, fun _ _ => 0, 1⟩ 0 ⟨"a", "", "", 0⟩).1
          = true := by
        rw [maybePickKey]
        simp [nextFloat64, probThatKeyAtDepth]
      rw [if_pos hmp]
      rw [maybePickKey]
      rfl
    rw [hpick]
  have h1 : (sampleRandomKey ⟨[1], 1⟩ (fun _ => true) false ⟨fun _ => 0, fun _ _ => 0, 0⟩
      (.node [⟨"a", "", "", 0⟩] [])).1 = some ⟨"a", "", "", 0⟩ := by
    rw [sampleRandomKey, hw]
    simp
  exact ⟨h1, sampleRandomKey_accept ⟨[1], 1⟩ (fun _ => true) false
    ⟨fun _ => 0, fun _ _ => 0, 0⟩ (.node [⟨"a", "", "", 0⟩] []) ⟨"a", "", "", 0⟩ h1⟩

/-- C10: the model built from an empty stream (or one cancelled before
the first descriptor) has `key_count = 0` and a depth slice of exactly
one zero entry; for every stream the slice is non-empty; and the
depth-probability query on the empty model takes its division branch
with numerator `depths[0] = 0` and denominator `key_count = 0` (a
0/0 float division in the Go source). -/
theorem buildModel_empty_model :
    (buildModel [] none).keyCount = 0
    ∧ (buildModel [] none).depths = [0]
    ∧ (∀ keys, buildModel keys (some 0) = buildModel [] none)
    ∧ (∀ keys ab, (buildModel keys ab).depths ≠ [])
    ∧ ¬(0 ≥ (buildModel [] none).depths.length)
    ∧ probThatKeyAtDepth (buildModel [] none) 0
        = ((buildModel [] none).depths.getD 0 0 : Rat) / ((buildModel [] none).keyCount : Rat)
    ∧ (buildModel [] none).depths.getD 0 0 = 0 := by
  refine ⟨by decide, by decide, ?_, ?_, by decide, ?_, by decide⟩
  · intro keys
    cases keys <;> rfl
  · intro keys ab
    intro hnil
    have hlen : (buildModel keys ab).depths.length
        = (buildLoop keys ab ⟨fun _ => 0, 0, 0⟩).maxDepth + 1 := by
      simp [buildModel]
    rw [hnil] at hlen
    simp at hlen
  · rw [probThatKeyAtDepth, if_neg (by decide)]

/-- Witness for C10: the concrete facts at the empty stream, extracted
by applying the theorem. -/
theorem buildModel_empty_model_witness :
    (buildModel [] none).keyCount = 0 ∧ (buildModel [] none).depths = [0]
    ∧ (buildModel [⟨"x/y", "", "", 0⟩] (some 0)).depths ≠ [] :=
  ⟨buildModel_empty_model.1, buildModel_empty_model.2.1,
    buildModel_empty_model.2.2.2.1 [⟨"x/y", "", "", 0⟩] (some 0)⟩
